import Mathlib

/-
Shallow embedding of the clustering visitors in
src/include/DataFrame/DataFrameMLVisitors.h (namespace hmdf):
`KMeansVisitor` (centroid engine) and `AffinityPropVisitor` (exemplar
engine).  `double` values are modelled exactly as rationals; the C++
sentinel `std::numeric_limits<double>::max()` becomes the exact rational
value of the largest finite double.  Columns are positionally addressed
(`ℕ → ℚ`), matching the column abstraction's contract; flat vectors
(`std::vector<double>`) are modelled as `ℕ → ℚ` with the source's literal
index arithmetic.  Non-owning pointers into the column are modelled as the
column positions they address.
-/

namespace DataFrameML

/-- The largest finite IEEE-754 double, `(2^53 - 1) * 2^971`, as an exact
rational (written as its decimal numeral so that it evaluates by kernel
reduction): the source's `std::numeric_limits<double>::max()` sentinel. -/
def DBL_MAX : ℚ := 179769313486231570814527423731704356798070567525844996598917476803157260780028538760589558632766878171540458953514382464234321326889464182768467546703537516986049910576551282076245490090389328944075868508455133942304583236903222948165808559332123348274797826204144723168738177180919299881250404026184124858368

/-- The running-minimum selection loop shared by both visitors'
`get_clusters`: `min_dist` starts at `DBL_MAX` and `min_idx` starts
uninitialized (modelled as `none`); scanning indices `0..m-1`, an index is
recorded iff its distance is strictly below the running minimum. -/
def argminLoop (d : ℕ → ℚ) (m : ℕ) : ℚ × Option ℕ :=
  (List.range m).foldl
    (fun acc i => if d i < acc.1 then (d i, some i) else acc) (DBL_MAX, none)

/-- A left fold of single-cell writes, one per key-value pair: the shape
shared by the packed-matrix fills and the centroid seeding loop. -/
def updateFold (L : List (ℕ × ℚ)) (f0 : ℕ → ℚ) : ℕ → ℚ :=
  L.foldl (fun f kv => Function.update f kv.1 kv.2) f0

/-- The running-minimum fold `if v < m then v else m` of
`get_similarity_`. -/
def minFold (l : List ℚ) (m : ℚ) : ℚ :=
  l.foldl (fun m2 v => if v < m2 then v else m2) m

namespace KMeans

/-- The convergence threshold `0.0000001` of `calc_k_means_`. -/
def eps : ℚ := 1 / 10000000

/-- The assignment loop of `calc_k_means_` for one point `x`:
`best_distance` starts at `DBL_MAX`, `best_cluster` starts at `0`
(initialized in the source, unlike `get_clusters`), and each cluster
strictly improving the best distance is recorded. -/
def assignPt (K : ℕ) (dfunc : ℚ → ℚ → ℚ) (kmeans : ℕ → ℚ) (x : ℚ) : ℕ :=
  ((List.range K).foldl
    (fun acc c => if dfunc x (kmeans c) < acc.1 then (dfunc x (kmeans c), c) else acc)
    (DBL_MAX, 0)).2

/-- The per-iteration assignment vector: `assignments[point]`. -/
def kmAsgn (K : ℕ) (dfunc : ℚ → ℚ → ℚ) (kmeans col : ℕ → ℚ) : ℕ → ℕ :=
  fun p => assignPt K dfunc kmeans (col p)

/-- `counts[cluster]`: the point loop accumulating `+ 1.0` for each point
assigned to `c`. -/
def counts (n : ℕ) (asgn : ℕ → ℕ) (c : ℕ) : ℚ :=
  (List.range n).foldl (fun s p => if asgn p = c then s + 1 else s) 0

/-- `new_means[cluster]` before division: the point loop accumulating
`col[point]` for each point assigned to `c`, starting from the
default-constructed `value_type()` (zero). -/
def sums (col : ℕ → ℚ) (n : ℕ) (asgn : ℕ → ℕ) (c : ℕ) : ℚ :=
  (List.range n).foldl (fun s p => if asgn p = c then s + col p else s) 0

/-- The divisor `std::max<double>(1.0, counts[cluster])`. -/
def divisor (n : ℕ) (asgn : ℕ → ℕ) (c : ℕ) : ℚ :=
  max 1 (counts n asgn c)

/-- The candidate new centroid `value = new_means[cluster] / count`. -/
def newMean (col : ℕ → ℚ) (n : ℕ) (asgn : ℕ → ℕ) (c : ℕ) : ℚ :=
  sums col n asgn c / divisor n asgn c

/-- One refinement iteration's effect on the centroid array: a cluster
adopts its candidate mean exactly when `dfunc(value, k_means_[cluster])`
exceeds the threshold. -/
def stepMeans (K : ℕ) (dfunc : ℚ → ℚ → ℚ) (col : ℕ → ℚ) (n : ℕ)
    (kmeans : ℕ → ℚ) : ℕ → ℚ :=
  fun c =>
    if c < K ∧ eps < dfunc (newMean col n (kmAsgn K dfunc kmeans col) c) (kmeans c)
    then newMean col n (kmAsgn K dfunc kmeans col) c
    else kmeans c

/-- The iteration's `done` flag: true iff no cluster's candidate mean is
farther than the threshold from the current centroid. -/
def stepDone (K : ℕ) (dfunc : ℚ → ℚ → ℚ) (col : ℕ → ℚ) (n : ℕ)
    (kmeans : ℕ → ℚ) : Bool :=
  decide (∀ c < K, ¬ eps < dfunc (newMean col n (kmAsgn K dfunc kmeans col) c) (kmeans c))

/-- The refinement loop of `calc_k_means_`, with fuel = remaining
iterations; returns the final centroid array and the number of iterations
executed (`break` on the `done` flag). -/
def kmLoop (K : ℕ) (dfunc : ℚ → ℚ → ℚ) (col : ℕ → ℚ) (n : ℕ) :
    ℕ → (ℕ → ℚ) → (ℕ → ℚ) × ℕ
  | 0, km => (km, 0)
  | f + 1, km =>
    if stepDone K dfunc col n km then (stepMeans K dfunc col n km, 1)
    else
      ((kmLoop K dfunc col n f (stepMeans K dfunc col n km)).1,
       (kmLoop K dfunc col n f (stepMeans K dfunc col n km)).2 + 1)

/-- `calc_k_means_`: every entry of `k_means_` is first overwritten with a
randomly drawn column value (the draws given by `seeds`, the prior array
contents by `prior`), then the refinement loop runs. -/
def calc_k_means_ (K iter_num : ℕ) (dfunc : ℚ → ℚ → ℚ) (seeds : ℕ → ℕ)
    (prior col : ℕ → ℚ) (col_size : ℕ) : (ℕ → ℚ) × ℕ :=
  kmLoop K dfunc col col_size iter_num
    ((List.range K).foldl (fun km k => Function.update km k (col (seeds k))) prior)

/-- `KMeansVisitor::operator()`: computes over the effective size
`min(idx.size(), col.size())`. -/
def kmCompute (K iter_num : ℕ) (dfunc : ℚ → ℚ → ℚ) (seeds : ℕ → ℕ)
    (prior col : ℕ → ℚ) (idx_size col_size : ℕ) : (ℕ → ℚ) × ℕ :=
  calc_k_means_ K iter_num dfunc seeds prior col (min idx_size col_size)

/-- `KMeansVisitor::get_clusters`: `K` groups, group `g` headed by the
synthetic centroid value `k_means_[g]`, followed by the positions `j`
(in increasing order, as the source's append loop produces) whose
selection loop lands on `g`. -/
def get_clusters (K : ℕ) (dfunc : ℚ → ℚ → ℚ) (kmeans col : ℕ → ℚ) (n : ℕ) :
    List (ℚ × List ℕ) :=
  (List.range K).map (fun g =>
    (kmeans g,
     (List.range n).filter (fun j =>
       (argminLoop (fun i => dfunc (col j) (kmeans i)) K).2 = some g)))

end KMeans

namespace AffinityProp

/-- The packed-triangular offset expression `i*csize + j - (i*(i+1))/2`,
exactly as written at each use site in the source (it addresses the pair
`(i, j)` only when `i ≤ j`). -/
def sidx (n i j : ℕ) : ℕ := i * n + j - (i * (i + 1)) / 2

/-- The pair loop of `get_similarity_`: fills the packed vector (initially
all `0.0`) with `-dfunc(col[i], col[j])` for `i < j` (inner index written
as `j = i + 1 + jo`), tracking the running minimum started at `DBL_MAX`. -/
def simFill (dfunc : ℚ → ℚ → ℚ) (col : ℕ → ℚ) (csize : ℕ) : (ℕ → ℚ) × ℚ :=
  (List.range (csize - 1)).foldl (fun acc i =>
    (List.range (csize - (i + 1))).foldl (fun acc2 jo =>
      (Function.update acc2.1 (sidx csize i (i + 1 + jo)) (-dfunc (col i) (col (i + 1 + jo))),
       if -dfunc (col i) (col (i + 1 + jo)) < acc2.2
       then -dfunc (col i) (col (i + 1 + jo)) else acc2.2)) acc)
    (fun _ => 0, DBL_MAX)

/-- `get_similarity_`: the pair loop, then the diagonal loop overwriting
every diagonal slot with the tracked minimum.  Returns the packed vector
and the minimum. -/
def get_similarity_ (dfunc : ℚ → ℚ → ℚ) (col : ℕ → ℚ) (csize : ℕ) :
    (ℕ → ℚ) × ℚ :=
  ((List.range csize).foldl
    (fun f i => Function.update f (sidx csize i i) (simFill dfunc col csize).2)
    (simFill dfunc col csize).1,
   (simFill dfunc col csize).2)

/-- The row-major list of packed writes the pair loop of `get_similarity_`
performs: one `(offset, -dfunc(col[i], col[j]))` entry per pair `i < j`
below `n`. -/
def simPairs (dfunc : ℚ → ℚ → ℚ) (col : ℕ → ℚ) (n : ℕ) : List (ℕ × ℚ) :=
  (List.range (n - 1)).flatMap (fun i =>
    (List.range (n - (i + 1))).map (fun jo =>
      (sidx n i (i + 1 + jo), -dfunc (col i) (col (i + 1 + jo)))))

/-- The inner maximum of the responsibility update: over `jj ≠ j`, the
largest `simil[i*csize + jj - (i*(i+1))/2] + avail[jj*csize + i]`,
starting from `-DBL_MAX` (the source splits `jj < j` and `jj > j` into two
loops; one loop skipping `jj = j` computes the same maximum). -/
def maxOther (simil avail : ℕ → ℚ) (n i j : ℕ) : ℚ :=
  (List.range n).foldl (fun acc jj =>
    if jj = j then acc
    else if acc < simil (sidx n i jj) + avail (jj * n + i)
    then simil (sidx n i jj) + avail (jj * n + i) else acc) (-DBL_MAX)

/-- One responsibility pass: the source's double loop writes each cell
`respon[j*csize + i]` exactly once, reading `simil`, the previous `avail`,
and only the cell's own previous `respon` value (damping), so the pass is
the cellwise map below (`k = j*csize + i`, hence `i = k % csize`,
`j = k / csize`). -/
def reponNext (simil : ℕ → ℚ) (n : ℕ) (d : ℚ) (avail respon : ℕ → ℚ) :
    ℕ → ℚ :=
  fun k =>
    if k < n * n then
      (1 - d) * (simil (sidx n (k % n) (k / n)) - maxOther simil avail n (k % n) (k / n)) +
        d * respon k
    else respon k

/-- One availability pass, reading the just-updated responsibility matrix:
diagonal cells sum `max(0, respon[j*csize+ii])` over `ii ≠ i`; off-diagonal
cells add `respon[j*csize+j]` to the same sum taken over `ii ∉ {i, j}`
(the source's three loops skipping `min(i,j)` and `max(i,j)`) and clamp
with `min(0, ·)`; each cell blends with its own previous value. -/
def availNext (n : ℕ) (d : ℚ) (avail respon : ℕ → ℚ) : ℕ → ℚ :=
  fun k =>
    if k < n * n then
      if k % n = k / n then
        (1 - d) *
          ((List.range n).foldl (fun s ii =>
            if ii = k % n then s else s + max 0 (respon ((k / n) * n + ii))) 0) +
          d * avail k
      else
        (1 - d) *
          min 0 (respon ((k / n) * n + k / n) +
            (List.range n).foldl (fun s ii =>
              if ii = k % n ∨ ii = k / n then s
              else s + max 0 (respon ((k / n) * n + ii))) 0) +
          d * avail k
    else avail k

/-- One message-passing round: the full responsibility pass, then the full
availability pass.  State is `(avail, respon)`. -/
def apRound (simil : ℕ → ℚ) (n : ℕ) (d : ℚ) :
    ((ℕ → ℚ) × (ℕ → ℚ)) → ((ℕ → ℚ) × (ℕ → ℚ)) :=
  fun st =>
    (availNext n d st.1 (reponNext simil n d st.1 st.2),
     reponNext simil n d st.1 st.2)

/-- `get_avail_and_respon`'s outer loop `for (m = 0; m < iter_num_; ++m)`,
by recursion on the remaining rounds. -/
def get_avail_and_respon (simil : ℕ → ℚ) (n : ℕ) (d : ℚ) :
    ℕ → ((ℕ → ℚ) × (ℕ → ℚ)) → ((ℕ → ℚ) × (ℕ → ℚ))
  | 0, st => st
  | m + 1, st => get_avail_and_respon simil n d m (apRound simil n d st)

/-- The exemplar positions one invocation of `operator()` computes from
scratch: both matrices start as zeros, `iter` rounds run, and position `i`
is pushed iff `respon[i*csize+i] + avail[i*csize+i] > 0`. -/
def apFresh (dfunc : ℚ → ℚ → ℚ) (col : ℕ → ℚ) (iter : ℕ) (d : ℚ)
    (csize : ℕ) : List ℕ :=
  let st := get_avail_and_respon ((get_similarity_ dfunc col csize).1) csize d iter
    (fun _ => 0, fun _ => 0)
  (List.range csize).filter (fun i => 0 < st.2 (i * csize + i) + st.1 (i * csize + i))

/-- `AffinityPropVisitor::operator()`: the effective size is
`min(idx.size(), col.size())`; the freshly selected exemplars are pushed
onto the existing `centers_` contents (`prior`), which the source never
clears. -/
def apOp (dfunc : ℚ → ℚ → ℚ) (col : ℕ → ℚ) (iter : ℕ) (d : ℚ)
    (idx_size col_size : ℕ) (prior : List ℕ) : List ℕ :=
  prior ++ apFresh dfunc col iter d (min idx_size col_size)

/-- `AffinityPropVisitor::get_clusters`: with no exemplars the result is
the empty list; otherwise one group per exemplar, group `g` holding the
positions whose selection loop over the exemplars lands on `g`. -/
def get_clusters (dfunc : ℚ → ℚ → ℚ) (col : ℕ → ℚ) (centers : List ℕ)
    (csize : ℕ) : List (List ℕ) :=
  if 0 < centers.length then
    (List.range centers.length).map (fun g =>
      (List.range csize).filter (fun j =>
        (argminLoop (fun i => dfunc (col j) (col (centers.getD i 0))) centers.length).2
          = some g))
  else []

end AffinityProp

/-- The default distance function of both visitors: squared difference. -/
def dsq : ℚ → ℚ → ℚ := fun x y => (x - y) * (x - y)

/-- A concrete three-entry column `[0, 1, 5]` used by concrete instances. -/
def col3 : ℕ → ℚ := fun p => if p = 0 then 0 else if p = 1 then 1 else 5

/-- A concrete two-entry column `[0, 1]` used by concrete instances. -/
def col2 : ℕ → ℚ := fun p => if p = 0 then 0 else 1

/-- A concrete two-entry column `[1/10000, 9]` used by the convergence
counterexample: the point `1/10000` sits within the threshold of the
centroid `0` but not exactly on it. -/
def colB : ℕ → ℚ := fun p => if p = 0 then 1/10000 else 9

/-- Concrete initial centroids `(0, 10)` for the convergence
counterexample. -/
def initB : ℕ → ℚ := fun c => if c = 0 then 0 else 10

/-- Modelled from the spec (refinement reference only): the responsibility
update formula of section 4.2, with the similarity for the pair `{i, j}`
read from the packed cell of the ordered pair `(min i j, max i j)` — the
addressing the claim asserts the source performs for every `j'`. -/
def reponSpecFormula (simil : ℕ → ℚ) (n : ℕ) (d : ℚ) (avail respon : ℕ → ℚ)
    (i j : ℕ) : ℚ :=
  (1 - d) *
    (simil (AffinityProp.sidx n (min i j) (max i j)) -
      (List.range n).foldl (fun acc jj =>
        if jj = j then acc
        else if acc < simil (AffinityProp.sidx n (min i jj) (max i jj)) + avail (jj * n + i)
        then simil (AffinityProp.sidx n (min i jj) (max i jj)) + avail (jj * n + i)
        else acc) (-DBL_MAX)) +
    d * respon (j * n + i)

section Helpers

/-- Unfolding one step of the selection loop. -/
theorem argminLoop_succ (d : ℕ → ℚ) (m : ℕ) :
    argminLoop d (m + 1) =
      if d m < (argminLoop d m).1 then (d m, some m) else argminLoop d m := by
  unfold argminLoop
  rw [List.range_succ, List.foldl_append]
  simp

/-- Full characterization of the selection loop: either no index had a
distance strictly below `DBL_MAX` and the index is still uninitialized, or
the first index attaining the minimum distance was selected. -/
theorem argminLoop_cases (d : ℕ → ℚ) (m : ℕ) :
    (argminLoop d m = (DBL_MAX, none) ∧ ∀ i < m, ¬ d i < DBL_MAX) ∨
    (∃ g, g < m ∧ argminLoop d m = (d g, some g) ∧ d g < DBL_MAX ∧
      (∀ i < m, d g ≤ d i) ∧ ∀ i < g, d g < d i) := by
  induction m with
  | zero => exact Or.inl ⟨rfl, by omega⟩
  | succ m ih =>
    rw [argminLoop_succ]
    rcases ih with ⟨heq, hnone⟩ | ⟨g, hgm, heq, hfin, hle, hfirst⟩
    · rw [heq]
      by_cases h : d m < DBL_MAX
      · refine Or.inr ⟨m, by omega, by simp [h], h, ?_, ?_⟩
        · intro i hi
          rcases Nat.lt_or_ge i m with hlt | hge
          · exact le_of_lt (lt_of_lt_of_le h (not_lt.mp (hnone i hlt)))
          · have : i = m := by omega
            exact this ▸ le_refl _
        · intro i hi
          exact lt_of_lt_of_le h (not_lt.mp (hnone i hi))
      · refine Or.inl ⟨by simp [h], ?_⟩
        intro i hi
        rcases Nat.lt_or_ge i m with hlt | hge
        · exact hnone i hlt
        · have : i = m := by omega
          exact this ▸ h
    · rw [heq]
      by_cases h : d m < d g
      · refine Or.inr ⟨m, by omega, by simp [h], lt_trans h hfin, ?_, ?_⟩
        · intro i hi
          rcases Nat.lt_or_ge i m with hlt | hge
          · exact le_of_lt (lt_of_lt_of_le h (hle i hlt))
          · have : i = m := by omega
            exact this ▸ le_refl _
        · intro i hi
          exact lt_of_lt_of_le h (hle i hi)
      · refine Or.inr ⟨g, by omega, by simp [h], hfin, ?_, hfirst⟩
        intro i hi
        rcases Nat.lt_or_ge i m with hlt | hge
        · exact hle i hlt
        · have : i = m := by omega
          exact this ▸ not_lt.mp h

/-- A fold of conditional increments counts the filtered elements. -/
theorem foldl_count_eq (p : ℕ → Prop) [DecidablePred p] (l : List ℕ) (init : ℚ) :
    l.foldl (fun s x => if p x then s + 1 else s) init =
      init + ((l.filter (fun x => decide (p x))).length : ℚ) := by
  induction l generalizing init with
  | nil => simp
  | cons hd tl ih =>
    by_cases h : p hd
    · simp [h, ih, add_assoc, add_comm]
    · simp [h, ih]

/-- A fold of conditional additions sums the filtered images. -/
theorem foldl_sum_eq (p : ℕ → Prop) [DecidablePred p] (col : ℕ → ℚ) (l : List ℕ)
    (init : ℚ) :
    l.foldl (fun s x => if p x then s + col x else s) init =
      init + ((l.filter (fun x => decide (p x))).map col).sum := by
  induction l generalizing init with
  | nil => simp
  | cons hd tl ih =>
    by_cases h : p hd
    · simp [h, ih, add_assoc]
    · simp [h, ih]

/-- Occurrence count of `j` in a filtered range. -/
theorem count_filter_range (n j : ℕ) (p : ℕ → Prop) [DecidablePred p] :
    List.count j ((List.range n).filter (fun x => decide (p x))) =
      if p j ∧ j < n then 1 else 0 := by
  by_cases hp : p j
  · rw [List.count_filter (by simpa using hp)]
    by_cases hj : j < n
    · simp [hp, hj, List.count_eq_one_of_mem (List.nodup_range n) (List.mem_range.mpr hj)]
    · simp only [hp, hj, and_false, if_false]
      exact List.count_eq_zero.mpr (fun hmem => hj (List.mem_range.mp hmem))
  · rw [if_neg (by tauto)]
    refine List.count_eq_zero.mpr (fun hmem => ?_)
    exact hp (of_decide_eq_true (List.mem_filter.mp hmem).2)

/-- Two folds agree when their step functions agree on the list's members. -/
theorem foldl_congr_mem {α β : Type} {l : List α} {f g : β → α → β} {b : β}
    (h : ∀ acc, ∀ x ∈ l, f acc x = g acc x) : l.foldl f b = l.foldl g b := by
  induction l generalizing b with
  | nil => rfl
  | cons hd tl ih =>
    simp only [List.foldl_cons]
    rw [h b hd (List.mem_cons_self hd tl)]
    exact ih (fun acc x hx => h acc x (List.mem_cons_of_mem hd hx))

namespace KMeans

/-- The seeding loop of `calc_k_means_` overwrites every centroid slot
below `K` with its drawn column value, whatever the array held before. -/
theorem seed_fold_eq (K : ℕ) (seeds : ℕ → ℕ) (prior col : ℕ → ℚ) (c : ℕ)
    (hc : c < K) :
    ((List.range K).foldl (fun km k => Function.update km k (col (seeds k))) prior) c =
      col (seeds c) := by
  induction K with
  | zero => omega
  | succ K ih =>
    rw [List.range_succ, List.foldl_append]
    simp only [List.foldl_cons, List.foldl_nil]
    rcases Nat.lt_or_ge c K with h | h
    · rw [Function.update_noteq (by omega)]
      exact ih h
    · have : c = K := by omega
      subst this
      exact Function.update_same c _ _

/-- The assignment of a point reads the centroid array only below `K`. -/
theorem assignPt_congr (K : ℕ) (dfunc : ℚ → ℚ → ℚ) {km1 km2 : ℕ → ℚ}
    (h : ∀ c < K, km1 c = km2 c) (x : ℚ) :
    assignPt K dfunc km1 x = assignPt K dfunc km2 x := by
  unfold assignPt
  congr 1
  refine foldl_congr_mem (fun acc c hc => ?_)
  rw [h c (List.mem_range.mp hc)]

/-- The whole assignment vector reads the centroid array only below `K`. -/
theorem kmAsgn_congr (K : ℕ) (dfunc : ℚ → ℚ → ℚ) {km1 km2 : ℕ → ℚ}
    (h : ∀ c < K, km1 c = km2 c) (col : ℕ → ℚ) :
    kmAsgn K dfunc km1 col = kmAsgn K dfunc km2 col := by
  funext p
  exact assignPt_congr K dfunc h (col p)

/-- One iteration's centroid update reads the centroid array only below
`K`, and its result below `K` depends only on those entries. -/
theorem stepMeans_congr (K : ℕ) (dfunc : ℚ → ℚ → ℚ) (col : ℕ → ℚ) (n : ℕ)
    {km1 km2 : ℕ → ℚ} (h : ∀ c < K, km1 c = km2 c) :
    ∀ c < K, stepMeans K dfunc col n km1 c = stepMeans K dfunc col n km2 c := by
  intro c hc
  unfold stepMeans
  rw [kmAsgn_congr K dfunc h col, h c hc]

/-- The `done` flag reads the centroid array only below `K`. -/
theorem stepDone_congr (K : ℕ) (dfunc : ℚ → ℚ → ℚ) (col : ℕ → ℚ) (n : ℕ)
    {km1 km2 : ℕ → ℚ} (h : ∀ c < K, km1 c = km2 c) :
    stepDone K dfunc col n km1 = stepDone K dfunc col n km2 := by
  unfold stepDone
  refine decide_eq_decide.mpr ?_
  rw [kmAsgn_congr K dfunc h col]
  constructor
  · intro hall c hc
    rw [← h c hc]
    exact hall c hc
  · intro hall c hc
    rw [h c hc]
    exact hall c hc

/-- The refinement loop preserves agreement of centroid arrays below `K`
and produces the same iteration count. -/
theorem kmLoop_congr (K : ℕ) (dfunc : ℚ → ℚ → ℚ) (col : ℕ → ℚ) (n fuel : ℕ) :
    ∀ {km1 km2 : ℕ → ℚ}, (∀ c < K, km1 c = km2 c) →
      (∀ c < K, (kmLoop K dfunc col n fuel km1).1 c = (kmLoop K dfunc col n fuel km2).1 c) ∧
      (kmLoop K dfunc col n fuel km1).2 = (kmLoop K dfunc col n fuel km2).2 := by
  induction fuel with
  | zero => exact fun h => ⟨h, rfl⟩
  | succ fuel ih =>
    intro km1 km2 h
    have hd := stepDone_congr K dfunc col n h
    have hs := stepMeans_congr K dfunc col n h
    by_cases hdone : stepDone K dfunc col n km1 = true
    · simp only [kmLoop, hdone, hd ▸ hdone, if_true]
      exact ⟨hs, trivial⟩
    · have hdone2 : stepDone K dfunc col n km2 ≠ true := fun hx => hdone (hd ▸ hx)
      simp only [kmLoop, if_neg hdone, if_neg hdone2]
      exact ⟨fun c hc => (ih hs).1 c hc, congrArg (· + 1) (ih hs).2⟩

/-- With the `done` flag set, the loop returns after the current
iteration. -/
theorem kmLoop_stop (K : ℕ) (dfunc : ℚ → ℚ → ℚ) (col : ℕ → ℚ) (n f : ℕ)
    (km : ℕ → ℚ) (h : stepDone K dfunc col n km = true) :
    kmLoop K dfunc col n (f + 1) km = (stepMeans K dfunc col n km, 1) := by
  simp [kmLoop, h]

/-- The loop never executes more iterations than its fuel. -/
theorem kmLoop_count_le (K : ℕ) (dfunc : ℚ → ℚ → ℚ) (col : ℕ → ℚ) (n : ℕ) :
    ∀ fuel km, (kmLoop K dfunc col n fuel km).2 ≤ fuel := by
  intro fuel
  induction fuel with
  | zero => intro km; exact le_refl _
  | succ f ih =>
    intro km
    by_cases h : stepDone K dfunc col n km = true
    · rw [kmLoop_stop K dfunc col n f km h]
      omega
    · simp only [kmLoop, if_neg h]
      have := ih (stepMeans K dfunc col n km)
      omega

/-- If the `done` flag never fires along the trajectory, the loop uses all
its fuel. -/
theorem kmLoop_never_done (K : ℕ) (dfunc : ℚ → ℚ → ℚ) (col : ℕ → ℚ) (n : ℕ) :
    ∀ fuel km,
      (∀ m < fuel, stepDone K dfunc col n
        ((fun g => stepMeans K dfunc col n g)^[m] km) = false) →
      (kmLoop K dfunc col n fuel km).2 = fuel := by
  intro fuel
  induction fuel with
  | zero => intro km _; rfl
  | succ f ih =>
    intro km h
    have h0 : stepDone K dfunc col n km = false := by
      have := h 0 (by omega)
      simpa using this
    simp only [kmLoop, h0, Bool.false_eq_true, if_false]
    have : (kmLoop K dfunc col n f (stepMeans K dfunc col n km)).2 = f := by
      refine ih (stepMeans K dfunc col n km) (fun m hm => ?_)
      have := h (m + 1) (by omega)
      rwa [Function.iterate_succ_apply] at this
    omega

/-- If the loop stopped before exhausting its fuel, the `done` flag fired
at some executed iteration. -/
theorem kmLoop_early_conv (K : ℕ) (dfunc : ℚ → ℚ → ℚ) (col : ℕ → ℚ) (n : ℕ) :
    ∀ fuel km, (kmLoop K dfunc col n fuel km).2 < fuel →
      ∃ m < fuel, stepDone K dfunc col n
        ((fun g => stepMeans K dfunc col n g)^[m] km) = true := by
  intro fuel
  induction fuel with
  | zero => intro km h; omega
  | succ f ih =>
    intro km hcount
    by_cases h : stepDone K dfunc col n km = true
    · exact ⟨0, by omega, by simpa using h⟩
    · simp only [kmLoop, if_neg h] at hcount
      obtain ⟨m, hm, hdone⟩ := ih (stepMeans K dfunc col n km) (by omega)
      refine ⟨m + 1, by omega, ?_⟩
      rwa [Function.iterate_succ_apply]

/-- The group `g < K` that `get_clusters` builds: the centroid value
followed by the positions whose selection loop lands on `g`. -/
theorem km_group_eq (K n : ℕ) (dfunc : ℚ → ℚ → ℚ) (kmeans col : ℕ → ℚ)
    (g : ℕ) (hg : g < K) :
    (get_clusters K dfunc kmeans col n).getD g (0, ([] : List ℕ)) =
      (kmeans g, (List.range n).filter (fun j =>
        decide ((argminLoop (fun i => dfunc (col j) (kmeans i)) K).2 = some g))) := by
  unfold get_clusters
  rw [List.getD_eq_getElem _ _ (by simpa using hg)]
  simp [hg]

end KMeans

namespace AffinityProp

/-- `get_avail_and_respon` applies the round function exactly as often as
its fuel says: it is the plain iterate, with no other exit path. -/
theorem gar_eq_iterate (simil : ℕ → ℚ) (n : ℕ) (d : ℚ) :
    ∀ iter st, get_avail_and_respon simil n d iter st = (apRound simil n d)^[iter] st := by
  intro iter
  induction iter with
  | zero => intro st; rfl
  | succ m ih =>
    intro st
    show get_avail_and_respon simil n d m (apRound simil n d st) = _
    rw [ih (apRound simil n d st), ← Function.iterate_succ_apply]

/-- The group `g` that the exemplar engine's `get_clusters` builds when
exemplars exist. -/
theorem ap_group_eq (dfunc : ℚ → ℚ → ℚ) (col : ℕ → ℚ) (centers : List ℕ)
    (csize g : ℕ) (hg : g < centers.length) :
    (get_clusters dfunc col centers csize).getD g ([] : List ℕ) =
      (List.range csize).filter (fun j =>
        decide ((argminLoop (fun i => dfunc (col j) (col (centers.getD i 0)))
          centers.length).2 = some g)) := by
  unfold get_clusters
  rw [if_pos (by omega)]
  rw [List.getD_eq_getElem _ _ (by simpa using hg)]
  simp [hg]

end AffinityProp

end Helpers

section ConcreteFacts

set_option maxRecDepth 6000

/-- One compute on column `[0, 1, 5]` with one round and damping `1/2`
selects exactly position `1` as exemplar. -/
theorem apFresh_col3_eq : AffinityProp.apFresh dsq col3 1 (1/2) 3 = [1] := by
  with_unfolding_all decide

/-- One compute on column `[0, 1]` with one round and damping `9/10`
selects no exemplar at all. -/
theorem apFresh_col2_eq : AffinityProp.apFresh dsq col2 1 (9/10) 2 = [] := by
  with_unfolding_all decide

end ConcreteFacts

/-- Claim C1 (counterexample): on column `[0, 1, 5]` with one round and
damping `1/2`, re-invoking the exemplar engine's compute does not
reproduce the result of a single compute — the prior exemplar list is kept
and appended to, so `get_result` shows `[1, 1]` instead of `[1]`. -/
theorem C1_counterexample :
    AffinityProp.apOp dsq col3 1 (1/2) 3 3 (AffinityProp.apOp dsq col3 1 (1/2) 3 3 []) ≠
      AffinityProp.apOp dsq col3 1 (1/2) 3 3 [] := by
  have h : AffinityProp.apFresh dsq col3 1 (1/2) (min 3 3) = [1] := apFresh_col3_eq
  unfold AffinityProp.apOp
  rw [h]
  simp

/-- Claim C1 (amended): the centroid engine's compute discards prior
state — its observable result (all `K` centroid slots, and the iteration
count) is independent of the array contents left by any earlier compute —
but the exemplar engine's compute appends: after a second compute the
exemplar list is the first compute's list followed by the exemplars
recomputed from scratch, not the fresh result alone. -/
theorem C1_amended_theorem (K iter idx_size col_size it : ℕ)
    (dfunc : ℚ → ℚ → ℚ) (seeds : ℕ → ℕ) (prior prior2 col : ℕ → ℚ) (d : ℚ)
    (pr : List ℕ) :
    (∀ c < K, (KMeans.kmCompute K iter dfunc seeds prior col idx_size col_size).1 c =
        (KMeans.kmCompute K iter dfunc seeds prior2 col idx_size col_size).1 c) ∧
    (KMeans.kmCompute K iter dfunc seeds prior col idx_size col_size).2 =
        (KMeans.kmCompute K iter dfunc seeds prior2 col idx_size col_size).2 ∧
    AffinityProp.apOp dfunc col it d idx_size col_size
        (AffinityProp.apOp dfunc col it d idx_size col_size pr) =
      AffinityProp.apOp dfunc col it d idx_size col_size pr ++
        AffinityProp.apFresh dfunc col it d (min idx_size col_size) := by
  have hinit : ∀ c < K,
      ((List.range K).foldl (fun km k => Function.update km k (col (seeds k))) prior) c =
      ((List.range K).foldl (fun km k => Function.update km k (col (seeds k))) prior2) c := by
    intro c hc
    rw [KMeans.seed_fold_eq K seeds prior col c hc,
      KMeans.seed_fold_eq K seeds prior2 col c hc]
  have h := KMeans.kmLoop_congr K dfunc col (min idx_size col_size) iter hinit
  exact ⟨h.1, h.2, rfl⟩

/-- Claim C2 (code evaluation at the failing input): on column `[0, 1, 5]`
(so `n = 3`), with the default squared distance and damping `1/2`, in the
first responsibility pass at `(i, j) = (1, 2)` the source reads the packed
offset `1*3 + 0 - 1 = 2` for the pair term `j' = 0`; that offset is the
cell of the pair `(0, 2)` (value `-25`), not of the pair `(0, 1)`
(value `-1`).  The code's stored responsibility is therefore `9/2`,
whereas the spec's update formula (similarity read for the unordered pair
`{i, j'}`) yields `-15/2`. -/
theorem C2_code_evaluation :
    AffinityProp.sidx 3 1 0 = AffinityProp.sidx 3 0 2 ∧
    (AffinityProp.get_similarity_ dsq col3 3).1 (AffinityProp.sidx 3 1 0) = -25 ∧
    (AffinityProp.get_similarity_ dsq col3 3).1 (AffinityProp.sidx 3 0 1) = -1 ∧
    (AffinityProp.get_avail_and_respon ((AffinityProp.get_similarity_ dsq col3 3).1) 3
        (1/2) 1 (fun _ => 0, fun _ => 0)).2 (2 * 3 + 1) = 9/2 ∧
    reponSpecFormula ((AffinityProp.get_similarity_ dsq col3 3).1) 3 (1/2)
        (fun _ => 0) (fun _ => 0) 1 2 = -15/2 ∧
    (9/2 : ℚ) ≠ -15/2 := by
  refine ⟨by with_unfolding_all rfl, by with_unfolding_all rfl, by with_unfolding_all rfl,
    ?_, ?_, by with_unfolding_all decide⟩
  · with_unfolding_all rfl
  · with_unfolding_all rfl

/-- Claim C6: after all rounds of the exemplar engine's compute, position
`i` is an exemplar iff `i` is below the effective size and
`r(i,i) + a(i,i) > 0` over the final responsibility and availability
matrices; the exemplar set never exceeds the effective size, and its
cardinality can be zero (column `[0, 1]`) or positive (column
`[0, 1, 5]`). -/
theorem C6_exemplar_selection (dfunc : ℚ → ℚ → ℚ) (col : ℕ → ℚ)
    (iter csize : ℕ) (d : ℚ) :
    (∀ i, i ∈ AffinityProp.apFresh dfunc col iter d csize ↔
      i < csize ∧
        0 < (AffinityProp.get_avail_and_respon
              ((AffinityProp.get_similarity_ dfunc col csize).1) csize d iter
              (fun _ => 0, fun _ => 0)).2 (i * csize + i) +
            (AffinityProp.get_avail_and_respon
              ((AffinityProp.get_similarity_ dfunc col csize).1) csize d iter
              (fun _ => 0, fun _ => 0)).1 (i * csize + i)) ∧
    (AffinityProp.apFresh dfunc col iter d csize).length ≤ csize ∧
    AffinityProp.apFresh dsq col2 1 (9/10) 2 = [] ∧
    AffinityProp.apFresh dsq col3 1 (1/2) 3 = [1] := by
  refine ⟨?_, ?_, apFresh_col2_eq, apFresh_col3_eq⟩
  · intro i
    unfold AffinityProp.apFresh
    rw [List.mem_filter, List.mem_range]
    simp only [decide_eq_true_iff]
    try tauto
  · calc (AffinityProp.apFresh dfunc col iter d csize).length
        ≤ (List.range csize).length := by unfold AffinityProp.apFresh; exact List.length_filter_le _ _
      _ = csize := List.length_range csize

/-- Claim C3 (counterexample): on column `[1/10000, 9]` with centroids
`(0, 10)` and the default squared distance, the iteration continues (the
`done` flag is false because cluster 1 moves from `10` to `9`), yet
cluster 0's newly computed centroid `1/10000` — within the `1e-7`
threshold of the old value `0`, though different from it — is NOT
adopted: the updated array still holds `0`.  So "otherwise the new
centroids are adopted" fails as a statement about all clusters. -/
theorem C3_counterexample :
    KMeans.stepDone 2 dsq colB 2 initB = false ∧
    KMeans.newMean colB 2 (KMeans.kmAsgn 2 dsq initB colB) 0 = 1/10000 ∧
    dsq (1/10000) 0 ≤ KMeans.eps ∧
    (1/10000 : ℚ) ≠ 0 ∧
    KMeans.stepMeans 2 dsq colB 2 initB 0 = 0 ∧
    KMeans.stepMeans 2 dsq colB 2 initB 1 = 9 := by
  refine ⟨by with_unfolding_all rfl, by with_unfolding_all rfl,
    by with_unfolding_all decide, by with_unfolding_all decide, ?_, ?_⟩
  · with_unfolding_all rfl
  · with_unfolding_all rfl

/-- Claim C3 (amended): in each refinement iteration, a cluster whose
newly computed centroid is within `1e-7` of the old value keeps the old
value; only clusters exceeding the threshold adopt their new centroid.
The loop stops at the current iteration iff every cluster is within the
threshold, and when the flag never fires the loop runs exactly the
configured number of iterations. -/
theorem C3_amended_theorem (K iter n : ℕ) (dfunc : ℚ → ℚ → ℚ) (col km : ℕ → ℚ) :
    (∀ c < K,
      (dfunc (KMeans.newMean col n (KMeans.kmAsgn K dfunc km col) c) (km c) ≤ KMeans.eps →
        KMeans.stepMeans K dfunc col n km c = km c) ∧
      (KMeans.eps < dfunc (KMeans.newMean col n (KMeans.kmAsgn K dfunc km col) c) (km c) →
        KMeans.stepMeans K dfunc col n km c =
          KMeans.newMean col n (KMeans.kmAsgn K dfunc km col) c)) ∧
    (KMeans.stepDone K dfunc col n km = true ↔
      ∀ c < K,
        dfunc (KMeans.newMean col n (KMeans.kmAsgn K dfunc km col) c) (km c) ≤ KMeans.eps) ∧
    (∀ f, KMeans.stepDone K dfunc col n km = true →
      KMeans.kmLoop K dfunc col n (f + 1) km = (KMeans.stepMeans K dfunc col n km, 1)) ∧
    ((∀ m < iter, KMeans.stepDone K dfunc col n
        ((fun g => KMeans.stepMeans K dfunc col n g)^[m] km) = false) →
      (KMeans.kmLoop K dfunc col n iter km).2 = iter) := by
  refine ⟨?_, ?_, fun f h => KMeans.kmLoop_stop K dfunc col n f km h,
    KMeans.kmLoop_never_done K dfunc col n iter km⟩
  · intro c hc
    constructor
    · intro hle
      unfold KMeans.stepMeans
      rw [if_neg (by rw [not_and]; intro _; exact not_lt.mpr hle)]
    · intro hgt
      unfold KMeans.stepMeans
      rw [if_pos ⟨hc, hgt⟩]
  · unfold KMeans.stepDone
    rw [decide_eq_true_iff]
    constructor
    · intro hall c hc
      exact not_lt.mp (hall c hc)
    · intro hall c hc
      exact not_lt.mpr (hall c hc)

/-- Claim C8: in every update step (any centroid array, hence any
iteration), the count used for a cluster is the number of points assigned
to it; the divisor is that count when it is at least one and is forced to
one when the count is zero, so it is never zero, and a zero-count cluster
gets the degenerate centroid `0/1 = 0` (the default-constructed sum
divided by one). -/
theorem C8_divisor_safety (K n : ℕ) (dfunc : ℚ → ℚ → ℚ) (kmeans col : ℕ → ℚ) (c : ℕ) :
    (KMeans.counts n (KMeans.kmAsgn K dfunc kmeans col) c =
      (((List.range n).filter (fun p =>
        decide (KMeans.kmAsgn K dfunc kmeans col p = c))).length : ℚ)) ∧
    (1 ≤ KMeans.counts n (KMeans.kmAsgn K dfunc kmeans col) c →
      KMeans.divisor n (KMeans.kmAsgn K dfunc kmeans col) c =
        KMeans.counts n (KMeans.kmAsgn K dfunc kmeans col) c) ∧
    (KMeans.counts n (KMeans.kmAsgn K dfunc kmeans col) c = 0 →
      KMeans.divisor n (KMeans.kmAsgn K dfunc kmeans col) c = 1 ∧
      KMeans.newMean col n (KMeans.kmAsgn K dfunc kmeans col) c = 0) ∧
    KMeans.divisor n (KMeans.kmAsgn K dfunc kmeans col) c ≠ 0 := by
  have hcount : KMeans.counts n (KMeans.kmAsgn K dfunc kmeans col) c =
      (((List.range n).filter (fun p =>
        decide (KMeans.kmAsgn K dfunc kmeans col p = c))).length : ℚ) := by
    unfold KMeans.counts
    rw [foldl_count_eq (fun p => KMeans.kmAsgn K dfunc kmeans col p = c)]
    rw [zero_add]
  refine ⟨hcount, fun h => max_eq_right h, fun h => ⟨?_, ?_⟩, ?_⟩
  · unfold KMeans.divisor
    rw [h]
    exact max_eq_left (by norm_num)
  · have hlen : ((List.range n).filter (fun p =>
        decide (KMeans.kmAsgn K dfunc kmeans col p = c))).length = 0 := by
      have hq := hcount.symm.trans h
      exact_mod_cast hq
    have hnil : (List.range n).filter (fun p =>
        decide (KMeans.kmAsgn K dfunc kmeans col p = c)) = [] :=
      List.length_eq_zero.mp hlen
    have hsum : KMeans.sums col n (KMeans.kmAsgn K dfunc kmeans col) c = 0 := by
      unfold KMeans.sums
      rw [foldl_sum_eq (fun p => KMeans.kmAsgn K dfunc kmeans col p = c), hnil]
      simp
    unfold KMeans.newMean
    rw [hsum]
    simp
  · unfold KMeans.divisor
    have h1 : (1 : ℚ) ≤ max 1 (KMeans.counts n (KMeans.kmAsgn K dfunc kmeans col) c) :=
      le_max_left _ _
    exact ne_of_gt (lt_of_lt_of_le zero_lt_one h1)

/-- Claim C10: the exemplar engine's message-passing loop is the plain
iterate of the round function — it applies exactly the configured number
of rounds on every input, with no early exit — while the centroid engine's
loop executes at most its configured iteration count and stops short of it
only when the convergence flag fired at an executed iteration. -/
theorem C10_loop_termination (simil : ℕ → ℚ) (ncs : ℕ) (d : ℚ) (iter : ℕ)
    (st : (ℕ → ℚ) × (ℕ → ℚ)) (K n fuel : ℕ) (dfunc : ℚ → ℚ → ℚ)
    (col km : ℕ → ℚ) :
    AffinityProp.get_avail_and_respon simil ncs d iter st =
      (AffinityProp.apRound simil ncs d)^[iter] st ∧
    (KMeans.kmLoop K dfunc col n fuel km).2 ≤ fuel ∧
    ((KMeans.kmLoop K dfunc col n fuel km).2 < fuel →
      ∃ m < fuel, KMeans.stepDone K dfunc col n
        ((fun g => KMeans.stepMeans K dfunc col n g)^[m] km) = true) := by
  exact ⟨AffinityProp.gar_eq_iterate simil ncs d iter st,
    KMeans.kmLoop_count_le K dfunc col n fuel km,
    KMeans.kmLoop_early_conv K dfunc col n fuel km⟩

/-- Shared step for the centroid engine: a point whose selection loop
lands on `g` is counted once in group `g` and zero times elsewhere. -/
theorem km_point_group (K n : ℕ) (dfunc : ℚ → ℚ → ℚ) (kmeans col : ℕ → ℚ)
    (j g : ℕ) (hj : j < n)
    (hsel : (argminLoop (fun i => dfunc (col j) (kmeans i)) K).2 = some g) :
    ∀ g2 < K, List.count j
        (((KMeans.get_clusters K dfunc kmeans col n).getD g2 (0, ([] : List ℕ))).2) =
      if g2 = g then 1 else 0 := by
  intro g2 hg2
  rw [KMeans.km_group_eq K n dfunc kmeans col g2 hg2]
  rw [count_filter_range n j
    (fun x => (argminLoop (fun i => dfunc (col x) (kmeans i)) K).2 = some g2)]
  by_cases he : g2 = g
  · subst he
    rw [if_pos ⟨hsel, hj⟩, if_pos rfl]
  · rw [if_neg (fun hx => he (Option.some_injective _ (hx.1.symm.trans hsel))),
      if_neg he]

/-- Shared step for the exemplar engine: a point whose selection loop
lands on `g` is counted once in group `g` and zero times elsewhere. -/
theorem ap_point_group (dfunc : ℚ → ℚ → ℚ) (col : ℕ → ℚ) (centers : List ℕ)
    (csize j g : ℕ) (hj : j < csize)
    (hsel : (argminLoop (fun i => dfunc (col j) (col (centers.getD i 0)))
      centers.length).2 = some g) :
    ∀ g2 < centers.length, List.count j
        ((AffinityProp.get_clusters dfunc col centers csize).getD g2 ([] : List ℕ)) =
      if g2 = g then 1 else 0 := by
  intro g2 hg2
  rw [AffinityProp.ap_group_eq dfunc col centers csize g2 hg2]
  rw [count_filter_range csize j
    (fun x => (argminLoop (fun i => dfunc (col x) (col (centers.getD i 0)))
      centers.length).2 = some g2)]
  by_cases he : g2 = g
  · subst he
    rw [if_pos ⟨hsel, hj⟩, if_pos rfl]
  · rw [if_neg (fun hx => he (Option.some_injective _ (hx.1.symm.trans hsel))),
      if_neg he]

/-- Claim C4: with `n ≥ K ≥ 1` and every computed distance strictly below
the largest finite double, the centroid engine's `get_clusters` yields
exactly `K` groups, group `g` headed by the synthetic centroid value
`k_means_[g]`; every column position below `n` occurs exactly once among
the point entries across the `K` groups, namely in the group of its
nearest centroid, ties resolved to the lowest cluster index. -/
theorem C4_kmeans_get_clusters (K n : ℕ) (dfunc : ℚ → ℚ → ℚ)
    (kmeans col : ℕ → ℚ) (hK : 1 ≤ K) (hKn : K ≤ n)
    (hdist : ∀ j < n, ∀ i < K, dfunc (col j) (kmeans i) < DBL_MAX) :
    (KMeans.get_clusters K dfunc kmeans col n).length = K ∧
    (∀ g < K, ((KMeans.get_clusters K dfunc kmeans col n).getD g
      (0, ([] : List ℕ))).1 = kmeans g) ∧
    (∀ j < n, ∃ g < K,
      (∀ g2 < K, List.count j (((KMeans.get_clusters K dfunc kmeans col n).getD g2
        (0, ([] : List ℕ))).2) = if g2 = g then 1 else 0) ∧
      (∀ i < K, dfunc (col j) (kmeans g) ≤ dfunc (col j) (kmeans i)) ∧
      (∀ i < g, dfunc (col j) (kmeans g) < dfunc (col j) (kmeans i))) := by
  refine ⟨by unfold KMeans.get_clusters; simp, ?_, ?_⟩
  · intro g hg
    rw [KMeans.km_group_eq K n dfunc kmeans col g hg]
  · intro j hj
    rcases argminLoop_cases (fun i => dfunc (col j) (kmeans i)) K with
      ⟨_, hnone⟩ | ⟨g, hgK, heq, _, hle, hfirst⟩
    · exact absurd (hdist j hj 0 (by omega)) (hnone 0 (by omega))
    · have hsel : (argminLoop (fun i => dfunc (col j) (kmeans i)) K).2 = some g := by
        rw [heq]
      exact ⟨g, hgK, km_point_group K n dfunc kmeans col j g hj hsel, hle, hfirst⟩

/-- Claim C4 witness: the theorem applied at `K = 1`, `n = 2`, the default
squared distance, centroid array constantly `0`, and column `[0, 1]`. -/
theorem C4_kmeans_get_clusters_witness :
    (KMeans.get_clusters 1 dsq (fun _ => 0) col2 2).length = 1 ∧
    (∀ g < 1, ((KMeans.get_clusters 1 dsq (fun _ => 0) col2 2).getD g
      (0, ([] : List ℕ))).1 = (fun _ => (0 : ℚ)) g) ∧
    (∀ j < 2, ∃ g < 1,
      (∀ g2 < 1, List.count j (((KMeans.get_clusters 1 dsq (fun _ => 0) col2 2).getD g2
        (0, ([] : List ℕ))).2) = if g2 = g then 1 else 0) ∧
      (∀ i < 1, dsq (col2 j) ((fun _ => (0 : ℚ)) g) ≤ dsq (col2 j) ((fun _ => (0 : ℚ)) i)) ∧
      (∀ i < g, dsq (col2 j) ((fun _ => (0 : ℚ)) g) < dsq (col2 j) ((fun _ => (0 : ℚ)) i))) :=
  C4_kmeans_get_clusters 1 2 dsq (fun _ => 0) col2 (by norm_num) (by norm_num)
    (by with_unfolding_all decide)

/-- Claim C7: the exemplar engine's `get_clusters` returns the empty list
of groups when no exemplar was selected (no error path), and otherwise one
group per exemplar, each column position below the effective size counted
once in the group of its nearest exemplar (under the configured distance
function, every computed distance below the largest finite double), ties
resolved to the first — lowest-index — exemplar. -/
theorem C7_ap_get_clusters (dfunc : ℚ → ℚ → ℚ) (col : ℕ → ℚ)
    (centers : List ℕ) (csize : ℕ)
    (hdist : ∀ j < csize, ∀ i < centers.length,
      dfunc (col j) (col (centers.getD i 0)) < DBL_MAX) :
    (centers = [] → AffinityProp.get_clusters dfunc col centers csize = []) ∧
    (centers ≠ [] →
      (AffinityProp.get_clusters dfunc col centers csize).length = centers.length ∧
      ∀ j < csize, ∃ g < centers.length,
        (∀ g2 < centers.length,
          List.count j ((AffinityProp.get_clusters dfunc col centers csize).getD g2
            ([] : List ℕ)) = if g2 = g then 1 else 0) ∧
        (∀ i < centers.length, dfunc (col j) (col (centers.getD g 0)) ≤
          dfunc (col j) (col (centers.getD i 0))) ∧
        (∀ i < g, dfunc (col j) (col (centers.getD g 0)) <
          dfunc (col j) (col (centers.getD i 0)))) := by
  constructor
  · intro h
    subst h
    simp [AffinityProp.get_clusters]
  · intro hne
    have hlen : 0 < centers.length := List.length_pos.mpr hne
    constructor
    · unfold AffinityProp.get_clusters
      rw [if_pos hlen]
      simp
    · intro j hj
      rcases argminLoop_cases (fun i => dfunc (col j) (col (centers.getD i 0)))
          centers.length with ⟨_, hnone⟩ | ⟨g, hgK, heq, _, hle, hfirst⟩
      · exact absurd (hdist j hj 0 hlen) (hnone 0 hlen)
      · have hsel : (argminLoop (fun i => dfunc (col j) (col (centers.getD i 0)))
            centers.length).2 = some g := by
          rw [heq]
        exact ⟨g, hgK, ap_point_group dfunc col centers csize j g hj hsel, hle, hfirst⟩

/-- Claim C7 witness: the theorem applied at column `[0, 1, 5]`, exemplar
list `[1]`, effective size `3`, default squared distance. -/
theorem C7_ap_get_clusters_witness :
    (([1] : List ℕ) = [] → AffinityProp.get_clusters dsq col3 [1] 3 = []) ∧
    (([1] : List ℕ) ≠ [] →
      (AffinityProp.get_clusters dsq col3 [1] 3).length = ([1] : List ℕ).length ∧
      ∀ j < 3, ∃ g < ([1] : List ℕ).length,
        (∀ g2 < ([1] : List ℕ).length,
          List.count j ((AffinityProp.get_clusters dsq col3 [1] 3).getD g2
            ([] : List ℕ)) = if g2 = g then 1 else 0) ∧
        (∀ i < ([1] : List ℕ).length, dsq (col3 j) (col3 (([1] : List ℕ).getD g 0)) ≤
          dsq (col3 j) (col3 (([1] : List ℕ).getD i 0))) ∧
        (∀ i < g, dsq (col3 j) (col3 (([1] : List ℕ).getD g 0)) <
          dsq (col3 j) (col3 (([1] : List ℕ).getD i 0)))) :=
  C7_ap_get_clusters dsq col3 [1] 3 (by with_unfolding_all decide)

/-- Claim C9: in both engines' `get_clusters`, the selection loop records
an index only when some computed distance is strictly below the largest
finite double — if no distance is, the index variable keeps its
uninitialized state (modelled as `none`, an uninitialized read in the
source); when the recorded index exists it is in range with its distance
below the sentinel; and under the precondition that all computed distances
are below the sentinel, every point lands in exactly one well-defined
group of either engine. -/
theorem C9_selection_initialization (K n csize : ℕ) (dfunc : ℚ → ℚ → ℚ)
    (kmeans col : ℕ → ℚ) (centers : List ℕ) :
    (∀ (dvec : ℕ → ℚ) (m : ℕ), (∀ i < m, ¬ dvec i < DBL_MAX) →
      (argminLoop dvec m).2 = none) ∧
    (∀ (dvec : ℕ → ℚ) (m g : ℕ), (argminLoop dvec m).2 = some g →
      g < m ∧ dvec g < DBL_MAX) ∧
    (∀ j < n, (∃ i, i < K ∧ dfunc (col j) (kmeans i) < DBL_MAX) →
      ∃ g < K, ∀ g2 < K,
        List.count j (((KMeans.get_clusters K dfunc kmeans col n).getD g2
          (0, ([] : List ℕ))).2) = if g2 = g then 1 else 0) ∧
    (∀ j < csize, (∃ i, i < centers.length ∧
        dfunc (col j) (col (centers.getD i 0)) < DBL_MAX) →
      ∃ g < centers.length, ∀ g2 < centers.length,
        List.count j ((AffinityProp.get_clusters dfunc col centers csize).getD g2
          ([] : List ℕ)) = if g2 = g then 1 else 0) := by
  refine ⟨?_, ?_, ?_, ?_⟩
  · intro dvec m hnone
    rcases argminLoop_cases dvec m with ⟨heq, _⟩ | ⟨g, hgm, heq, hfin, _, _⟩
    · rw [heq]
    · exact absurd hfin (hnone g hgm)
  · intro dvec m g hsome
    rcases argminLoop_cases dvec m with ⟨heq, _⟩ | ⟨g2, hgm, heq, hfin, _, _⟩
    · rw [heq] at hsome
      exact absurd hsome (by simp)
    · rw [heq] at hsome
      have : g2 = g := Option.some_injective _ (by simpa using hsome)
      subst this
      exact ⟨hgm, hfin⟩
  · intro j hj ⟨i, hiK, hifin⟩
    rcases argminLoop_cases (fun i => dfunc (col j) (kmeans i)) K with
      ⟨_, hnone⟩ | ⟨g, hgK, heq, _, _, _⟩
    · exact absurd hifin (hnone i hiK)
    · exact ⟨g, hgK, km_point_group K n dfunc kmeans col j g hj (by rw [heq])⟩
  · intro j hj ⟨i, hiK, hifin⟩
    rcases argminLoop_cases (fun i => dfunc (col j) (col (centers.getD i 0)))
        centers.length with ⟨_, hnone⟩ | ⟨g, hgK, heq, _, _, _⟩
    · exact absurd hifin (hnone i hiK)
    · exact ⟨g, hgK, ap_point_group dfunc col centers csize j g hj (by rw [heq])⟩

namespace AffinityProp

/-- Twice the packed offset, without truncation: for `i ≤ j < n`,
`2 * sidx n i j + i*(i+1) = 2*i*n + 2*j`. -/
theorem sidx_two_mul (n i j : ℕ) (hij : i ≤ j) (hjn : j < n) :
    2 * sidx n i j + i * (i + 1) = 2 * (i * n) + 2 * j := by
  obtain ⟨r, hr⟩ := Nat.even_mul_succ_self i
  have htri : i * (i + 1) ≤ i * n := Nat.mul_le_mul_left i (by omega)
  unfold sidx
  omega

/-- The packed offset is strictly monotone in the lexicographic order of
the upper triangle. -/
theorem sidx_lt_sidx (n i1 j1 i2 j2 : ℕ) (h1 : i1 ≤ j1) (h1n : j1 < n)
    (h2 : i2 ≤ j2) (h2n : j2 < n)
    (hlex : i1 < i2 ∨ (i1 = i2 ∧ j1 < j2)) :
    sidx n i1 j1 < sidx n i2 j2 := by
  have k1 := sidx_two_mul n i1 j1 h1 h1n
  have k2 := sidx_two_mul n i2 j2 h2 h2n
  rcases hlex with hlt | ⟨heq, hjj⟩
  · have hkey : (0 : ℤ) ≤ ((i2 : ℤ) - i1 - 1) * (2 * n - i2 - i1) := by
      have ha : (0 : ℤ) ≤ (i2 : ℤ) - i1 - 1 := by
        have : i1 + 1 ≤ i2 := hlt
        push_cast
        omega
      have hb : (0 : ℤ) ≤ 2 * (n : ℤ) - i2 - i1 := by
        have hi2 : i2 < n := by omega
        have hi1 : i1 < n := by omega
        push_cast
        omega
      exact mul_nonneg ha hb
    have k1z : 2 * (sidx n i1 j1 : ℤ) + i1 * (i1 + 1) = 2 * (i1 * n) + 2 * j1 := by
      exact_mod_cast congrArg (Nat.cast : ℕ → ℤ) k1
    have k2z : 2 * (sidx n i2 j2 : ℤ) + i2 * (i2 + 1) = 2 * (i2 * n) + 2 * j2 := by
      exact_mod_cast congrArg (Nat.cast : ℕ → ℤ) k2
    have hj1z : (j1 : ℤ) ≤ (n : ℤ) - 1 := by push_cast; omega
    have hj2z : (i2 : ℤ) ≤ (j2 : ℤ) := by push_cast; omega
    have goalz : (sidx n i1 j1 : ℤ) < (sidx n i2 j2 : ℤ) := by nlinarith
    exact_mod_cast goalz
  · subst heq
    omega

/-- The packed offset is injective on the upper triangle (diagonal
included). -/
theorem sidx_inj (n i1 j1 i2 j2 : ℕ) (h1 : i1 ≤ j1) (h1n : j1 < n)
    (h2 : i2 ≤ j2) (h2n : j2 < n) (heq : sidx n i1 j1 = sidx n i2 j2) :
    i1 = i2 ∧ j1 = j2 := by
  rcases Nat.lt_trichotomy i1 i2 with h | h | h
  · exact absurd heq (Nat.ne_of_lt (sidx_lt_sidx n i1 j1 i2 j2 h1 h1n h2 h2n (Or.inl h)))
  · subst h
    rcases Nat.lt_trichotomy j1 j2 with hj | hj | hj
    · exact absurd heq
        (Nat.ne_of_lt (sidx_lt_sidx n i1 j1 i1 j2 h1 h1n h2 h2n (Or.inr ⟨rfl, hj⟩)))
    · exact ⟨rfl, hj⟩
    · exact absurd heq.symm
        (Nat.ne_of_lt (sidx_lt_sidx n i1 j2 i1 j1 h2 h2n h1 h1n (Or.inr ⟨rfl, hj⟩)))
  · exact absurd heq.symm
      (Nat.ne_of_lt (sidx_lt_sidx n i2 j2 i1 j1 h2 h2n h1 h1n (Or.inl h)))

end AffinityProp

/-- A componentwise fold of a pair splits into two independent folds. -/
theorem foldl_pair_split {α : Type} (F : (ℕ → ℚ) → α → (ℕ → ℚ)) (G : ℚ → α → ℚ) :
    ∀ (L : List α) (p : (ℕ → ℚ) × ℚ),
      L.foldl (fun acc x => (F acc.1 x, G acc.2 x)) p = (L.foldl F p.1, L.foldl G p.2) := by
  intro L
  induction L with
  | nil => intro p; rfl
  | cons hd tl ih => intro p; exact ih (F p.1 hd, G p.2 hd)

/-- A fold over a flattened list is the nested fold. -/
theorem foldl_flatMap {α β γ : Type} (f : α → List β) (g : γ → β → γ) :
    ∀ (l : List α) (a : γ),
      (l.flatMap f).foldl g a = l.foldl (fun acc x => (f x).foldl g acc) a := by
  intro l
  induction l with
  | nil => intro a; rfl
  | cons hd tl ih =>
    intro a
    rw [List.flatMap_cons, List.foldl_append, List.foldl_cons]
    exact ih _

/-- A write list whose keys all avoid `k` leaves the cell `k` alone. -/
theorem updateFold_notmem : ∀ (L : List (ℕ × ℚ)) (f0 : ℕ → ℚ) (k : ℕ),
    (∀ kv ∈ L, kv.1 ≠ k) → updateFold L f0 k = f0 k := by
  intro L
  induction L with
  | nil => intro f0 k _; rfl
  | cons hd tl ih =>
    intro f0 k h
    unfold updateFold
    rw [List.foldl_cons]
    have htl := ih (Function.update f0 hd.1 hd.2) k
      (fun kv hkv => h kv (List.mem_cons_of_mem hd hkv))
    unfold updateFold at htl
    rw [htl, Function.update_noteq (fun hx => h hd (List.mem_cons_self hd tl) hx.symm)]

/-- A write list that writes `v` at `k` — and writes nothing else at `k` —
sets the cell `k` to `v`. -/
theorem updateFold_mem : ∀ (L : List (ℕ × ℚ)) (f0 : ℕ → ℚ) (k : ℕ) (v : ℚ),
    (k, v) ∈ L → (∀ kv ∈ L, kv.1 = k → kv.2 = v) → updateFold L f0 k = v := by
  intro L
  induction L with
  | nil => intro f0 k v hmem _; exact absurd hmem (List.not_mem_nil _)
  | cons hd tl ih =>
    intro f0 k v hmem huniq
    unfold updateFold
    rw [List.foldl_cons]
    by_cases htl : ∃ kv ∈ tl, kv.1 = k
    · obtain ⟨kv, hkv, hkvk⟩ := htl
      have hv : kv.2 = v := huniq kv (List.mem_cons_of_mem hd hkv) hkvk
      have hkvv : (k, v) ∈ tl := by
        have : kv = (k, v) := Prod.ext hkvk hv
        exact this ▸ hkv
      have := ih (Function.update f0 hd.1 hd.2) k v hkvv
        (fun kv2 hkv2 => huniq kv2 (List.mem_cons_of_mem hd hkv2))
      unfold updateFold at this
      exact this
    · have hhd : hd = (k, v) := by
        rcases List.mem_cons.mp hmem with h | h
        · exact h.symm
        · exact absurd ⟨(k, v), h, rfl⟩ htl
      subst hhd
      have : ∀ kv ∈ tl, kv.1 ≠ k := by
        intro kv hkv hx
        exact htl ⟨kv, hkv, hx⟩
      have hrest := updateFold_notmem tl (Function.update f0 k v) k this
      unfold updateFold at hrest
      rw [hrest, Function.update_same]

/-- The running-minimum fold never exceeds its starting value. -/
theorem minFold_le_init : ∀ (l : List ℚ) (m : ℚ), minFold l m ≤ m := by
  intro l
  induction l with
  | nil => intro m; exact le_refl m
  | cons hd tl ih =>
    intro m
    unfold minFold
    rw [List.foldl_cons]
    by_cases h : hd < m
    · rw [if_pos h]
      exact le_of_lt (lt_of_le_of_lt (ih hd) h)
    · rw [if_neg h]
      exact ih m

/-- The running-minimum fold never exceeds any processed value. -/
theorem minFold_le_mem : ∀ (l : List ℚ) (m v : ℚ), v ∈ l → minFold l m ≤ v := by
  intro l
  induction l with
  | nil => intro m v hv; exact absurd hv (List.not_mem_nil v)
  | cons hd tl ih =>
    intro m v hv
    unfold minFold
    rw [List.foldl_cons]
    rcases List.mem_cons.mp hv with h | h
    · subst h
      by_cases hlt : v < m
      · rw [if_pos hlt]
        exact minFold_le_init tl v
      · rw [if_neg hlt]
        exact le_trans (minFold_le_init tl m) (not_lt.mp hlt)
    · by_cases hlt : hd < m
      · rw [if_pos hlt]
        exact ih hd v h
      · rw [if_neg hlt]
        exact ih m v h

/-- The running-minimum fold returns its starting value or a processed
value. -/
theorem minFold_attain : ∀ (l : List ℚ) (m : ℚ), minFold l m = m ∨ minFold l m ∈ l := by
  intro l
  induction l with
  | nil => intro m; exact Or.inl rfl
  | cons hd tl ih =>
    intro m
    unfold minFold
    rw [List.foldl_cons]
    by_cases h : hd < m
    · rw [if_pos h]
      rcases ih hd with heq | hmem
      · refine Or.inr ?_
        show minFold tl hd ∈ hd :: tl
        rw [heq]
        exact List.mem_cons_self hd tl
      · exact Or.inr (List.mem_cons_of_mem hd hmem)
    · rw [if_neg h]
      rcases ih m with heq | hmem
      · exact Or.inl heq
      · exact Or.inr (List.mem_cons_of_mem hd hmem)

/-- Every pair `i < j < n` contributes its packed write to `simPairs`. -/
theorem simPairs_mem (dfunc : ℚ → ℚ → ℚ) (col : ℕ → ℚ) (n a b : ℕ)
    (hab : a < b) (hbn : b < n) :
    (AffinityProp.sidx n a b, -dfunc (col a) (col b)) ∈
      AffinityProp.simPairs dfunc col n := by
  unfold AffinityProp.simPairs
  rw [List.mem_flatMap]
  refine ⟨a, List.mem_range.mpr (by omega), ?_⟩
  rw [List.mem_map]
  refine ⟨b - a - 1, List.mem_range.mpr (by omega), ?_⟩
  have : a + 1 + (b - a - 1) = b := by omega
  rw [this]

/-- Every entry of `simPairs` is the packed write of some pair
`i < j < n`. -/
theorem simPairs_shape (dfunc : ℚ → ℚ → ℚ) (col : ℕ → ℚ) (n : ℕ) :
    ∀ kv ∈ AffinityProp.simPairs dfunc col n, ∃ a b, a < b ∧ b < n ∧
      kv = (AffinityProp.sidx n a b, -dfunc (col a) (col b)) := by
  intro kv hkv
  unfold AffinityProp.simPairs at hkv
  rw [List.mem_flatMap] at hkv
  obtain ⟨i, hi, hkv⟩ := hkv
  rw [List.mem_map] at hkv
  obtain ⟨jo, hjo, hkv⟩ := hkv
  rw [List.mem_range] at hjo
  exact ⟨i, i + 1 + jo, by omega, by omega, hkv.symm⟩

/-- The pair loop of `get_similarity_` is the write list `simPairs` on the
vector side and the running minimum of the written values on the tracked
side. -/
theorem simFill_split (dfunc : ℚ → ℚ → ℚ) (col : ℕ → ℚ) (n : ℕ) :
    AffinityProp.simFill dfunc col n =
      (updateFold (AffinityProp.simPairs dfunc col n) (fun _ => 0),
       minFold ((AffinityProp.simPairs dfunc col n).map Prod.snd) DBL_MAX) := by
  have hsplit : ∀ (i : ℕ) (acc : (ℕ → ℚ) × ℚ),
      (List.range (n - (i + 1))).foldl (fun acc2 jo =>
        (Function.update acc2.1 (AffinityProp.sidx n i (i + 1 + jo))
          (-dfunc (col i) (col (i + 1 + jo))),
         if -dfunc (col i) (col (i + 1 + jo)) < acc2.2
         then -dfunc (col i) (col (i + 1 + jo)) else acc2.2)) acc =
      ((List.range (n - (i + 1))).foldl (fun f jo =>
          Function.update f (AffinityProp.sidx n i (i + 1 + jo))
            (-dfunc (col i) (col (i + 1 + jo)))) acc.1,
       (List.range (n - (i + 1))).foldl (fun m jo =>
          if -dfunc (col i) (col (i + 1 + jo)) < m
          then -dfunc (col i) (col (i + 1 + jo)) else m) acc.2) := by
    intro i acc
    exact foldl_pair_split
      (fun f jo => Function.update f (AffinityProp.sidx n i (i + 1 + jo))
        (-dfunc (col i) (col (i + 1 + jo))))
      (fun m jo => if -dfunc (col i) (col (i + 1 + jo)) < m
        then -dfunc (col i) (col (i + 1 + jo)) else m)
      (List.range (n - (i + 1))) acc
  have h1 : AffinityProp.simFill dfunc col n =
      ((List.range (n - 1)).foldl (fun f i =>
          (List.range (n - (i + 1))).foldl (fun f2 jo =>
            Function.update f2 (AffinityProp.sidx n i (i + 1 + jo))
              (-dfunc (col i) (col (i + 1 + jo)))) f) (fun _ => 0),
       (List.range (n - 1)).foldl (fun m i =>
          (List.range (n - (i + 1))).foldl (fun m2 jo =>
            if -dfunc (col i) (col (i + 1 + jo)) < m2
            then -dfunc (col i) (col (i + 1 + jo)) else m2) m) DBL_MAX) := by
    unfold AffinityProp.simFill
    refine Eq.trans (foldl_congr_mem (fun acc i _ => hsplit i acc)) ?_
    exact foldl_pair_split
      (fun f i => (List.range (n - (i + 1))).foldl (fun f2 jo =>
        Function.update f2 (AffinityProp.sidx n i (i + 1 + jo))
          (-dfunc (col i) (col (i + 1 + jo)))) f)
      (fun m i => (List.range (n - (i + 1))).foldl (fun m2 jo =>
        if -dfunc (col i) (col (i + 1 + jo)) < m2
        then -dfunc (col i) (col (i + 1 + jo)) else m2) m)
      (List.range (n - 1)) ((fun _ => 0), DBL_MAX)
  rw [h1]
  have h2 : (List.range (n - 1)).foldl (fun f i =>
      (List.range (n - (i + 1))).foldl (fun f2 jo =>
        Function.update f2 (AffinityProp.sidx n i (i + 1 + jo))
          (-dfunc (col i) (col (i + 1 + jo)))) f) (fun _ => (0 : ℚ)) =
      updateFold (AffinityProp.simPairs dfunc col n) (fun _ => 0) := by
    unfold updateFold AffinityProp.simPairs
    rw [foldl_flatMap]
    simp only [List.foldl_map]
    try rfl
  have h3 : (List.range (n - 1)).foldl (fun m i =>
      (List.range (n - (i + 1))).foldl (fun m2 jo =>
        if -dfunc (col i) (col (i + 1 + jo)) < m2
        then -dfunc (col i) (col (i + 1 + jo)) else m2) m) DBL_MAX =
      minFold ((AffinityProp.simPairs dfunc col n).map Prod.snd) DBL_MAX := by
    unfold minFold AffinityProp.simPairs
    rw [List.map_flatMap, foldl_flatMap]
    simp only [List.map_map, List.foldl_map]
    try rfl
  rw [h2, h3]

/-- The sentinel is positive. -/
theorem DBL_MAX_pos : (0 : ℚ) < DBL_MAX := by
  with_unfolding_all decide

/-- The diagonal loop of `get_similarity_` as a write list. -/
theorem diag_fold_eq (n : ℕ) (M : ℚ) (U : ℕ → ℚ) :
    (List.range n).foldl (fun f i => Function.update f (AffinityProp.sidx n i i) M) U =
      updateFold ((List.range n).map (fun a => (AffinityProp.sidx n a a, M))) U := by
  unfold updateFold
  rw [List.foldl_map]

/-- The expanded similarity value of a strict pair `i < j < n`. -/
theorem sim_off_diag (dfunc : ℚ → ℚ → ℚ) (col : ℕ → ℚ) (n i j : ℕ)
    (hij : i < j) (hjn : j < n) :
    (AffinityProp.get_similarity_ dfunc col n).1 (AffinityProp.sidx n i j) =
      -dfunc (col i) (col j) := by
  show ((List.range n).foldl (fun f a =>
      Function.update f (AffinityProp.sidx n a a) (AffinityProp.simFill dfunc col n).2)
      (AffinityProp.simFill dfunc col n).1) (AffinityProp.sidx n i j) =
    -dfunc (col i) (col j)
  rw [simFill_split dfunc col n]
  rw [diag_fold_eq]
  rw [updateFold_notmem _ _ _ (fun kv hkv => ?_)]
  · refine updateFold_mem _ _ _ _ (simPairs_mem dfunc col n i j hij hjn)
      (fun kv hkv hk => ?_)
    obtain ⟨a, b, hab, hbn, rfl⟩ := simPairs_shape dfunc col n kv hkv
    obtain ⟨ha, hb⟩ := AffinityProp.sidx_inj n a b i j (le_of_lt hab) hbn
      (le_of_lt hij) hjn hk
    rw [ha, hb]
  · obtain ⟨a, ha, rfl⟩ := List.mem_map.mp hkv
    intro hx
    obtain ⟨ha1, ha2⟩ := AffinityProp.sidx_inj n a a i j (le_refl a)
      (List.mem_range.mp ha) (le_of_lt hij) hjn hx
    omega

/-- Every diagonal slot of the expanded similarity holds the tracked
minimum. -/
theorem sim_diag (dfunc : ℚ → ℚ → ℚ) (col : ℕ → ℚ) (n i : ℕ) (hi : i < n) :
    (AffinityProp.get_similarity_ dfunc col n).1 (AffinityProp.sidx n i i) =
      (AffinityProp.get_similarity_ dfunc col n).2 := by
  show ((List.range n).foldl (fun f a =>
      Function.update f (AffinityProp.sidx n a a) (AffinityProp.simFill dfunc col n).2)
      (AffinityProp.simFill dfunc col n).1) (AffinityProp.sidx n i i) =
    (AffinityProp.simFill dfunc col n).2
  rw [diag_fold_eq]
  refine updateFold_mem _ _ _ _ ?_ (fun kv hkv hk => ?_)
  · exact List.mem_map.mpr ⟨i, List.mem_range.mpr hi, rfl⟩
  · obtain ⟨a, ha, rfl⟩ := List.mem_map.mp hkv
    rfl

/-- Claim C5: reading the packed triangular storage as a full matrix
(offset of the ordered pair `(min i j, max i j)`), the exemplar engine's
similarity satisfies `s(i,j) = s(j,i) = -dfunc(col[i], col[j])` for all
`i ≠ j` below the effective size, and every diagonal entry equals the
global minimum off-diagonal similarity — some pair attains it and no pair
is below it.  (Hypotheses mirror the data-model contract: at least two
points, and a symmetric, non-negative distance function on the column's
values.) -/
theorem C5_similarity_symmetry (n : ℕ) (dfunc : ℚ → ℚ → ℚ) (col : ℕ → ℚ)
    (hn : 2 ≤ n)
    (hsym : ∀ a < n, ∀ b < n, dfunc (col a) (col b) = dfunc (col b) (col a))
    (hnn : ∀ a < n, ∀ b < n, 0 ≤ dfunc (col a) (col b)) :
    (∀ i < n, ∀ j < n, i ≠ j →
      (AffinityProp.get_similarity_ dfunc col n).1
          (AffinityProp.sidx n (min i j) (max i j)) = -dfunc (col i) (col j) ∧
      (AffinityProp.get_similarity_ dfunc col n).1
          (AffinityProp.sidx n (min i j) (max i j)) =
        (AffinityProp.get_similarity_ dfunc col n).1
          (AffinityProp.sidx n (min j i) (max j i))) ∧
    (∀ i < n, (AffinityProp.get_similarity_ dfunc col n).1 (AffinityProp.sidx n i i) =
      (AffinityProp.get_similarity_ dfunc col n).2) ∧
    (∃ a b, a < b ∧ b < n ∧
      (AffinityProp.get_similarity_ dfunc col n).2 = -dfunc (col a) (col b)) ∧
    (∀ a b, a < b → b < n →
      (AffinityProp.get_similarity_ dfunc col n).2 ≤ -dfunc (col a) (col b)) := by
  have hsnd : (AffinityProp.get_similarity_ dfunc col n).2 =
      minFold ((AffinityProp.simPairs dfunc col n).map Prod.snd) DBL_MAX := by
    show (AffinityProp.simFill dfunc col n).2 = _
    rw [simFill_split dfunc col n]
  have hminle : ∀ a b, a < b → b < n →
      (AffinityProp.get_similarity_ dfunc col n).2 ≤ -dfunc (col a) (col b) := by
    intro a b hab hbn
    rw [hsnd]
    exact minFold_le_mem _ _ _ (List.mem_map.mpr
      ⟨(AffinityProp.sidx n a b, -dfunc (col a) (col b)),
        simPairs_mem dfunc col n a b hab hbn, rfl⟩)
  refine ⟨?_, fun i hi => sim_diag dfunc col n i hi, ?_, hminle⟩
  · intro i hi j hj hne
    rcases Nat.lt_or_ge i j with hij | hge
    · have h1 : min i j = i := Nat.min_eq_left (le_of_lt hij)
      have h2 : max i j = j := Nat.max_eq_right (le_of_lt hij)
      rw [h1, h2, Nat.min_comm j i, Nat.max_comm j i, h1, h2]
      exact ⟨sim_off_diag dfunc col n i j hij hj, rfl⟩
    · have hji : j < i := by omega
      have h1 : min i j = j := Nat.min_eq_right (le_of_lt hji)
      have h2 : max i j = i := Nat.max_eq_left (le_of_lt hji)
      rw [h1, h2, Nat.min_comm j i, Nat.max_comm j i, h1, h2]
      refine ⟨?_, rfl⟩
      rw [sim_off_diag dfunc col n j i hji hi, hsym j hj i hi]
  · rcases minFold_attain ((AffinityProp.simPairs dfunc col n).map Prod.snd) DBL_MAX with
      heq | hmem
    · exfalso
      have h01 : (AffinityProp.get_similarity_ dfunc col n).2 ≤ -dfunc (col 0) (col 1) :=
        hminle 0 1 (by omega) (by omega)
      have hle0 : -dfunc (col 0) (col 1) ≤ 0 :=
        neg_nonpos.mpr (hnn 0 (by omega) 1 (by omega))
      rw [hsnd, heq] at h01
      exact absurd (lt_of_le_of_lt (le_trans h01 hle0) DBL_MAX_pos) (lt_irrefl _)
    · obtain ⟨kv, hkv, hval⟩ := List.mem_map.mp hmem
      obtain ⟨a, b, hab, hbn, rfl⟩ := simPairs_shape dfunc col n kv hkv
      exact ⟨a, b, hab, hbn, by rw [hsnd, ← hval]⟩

/-- Claim C5 witness: the theorem applied at `n = 2`, the default squared
distance, and column `[0, 1]`. -/
theorem C5_similarity_symmetry_witness :
    (∀ i < 2, ∀ j < 2, i ≠ j →
      (AffinityProp.get_similarity_ dsq col2 2).1
          (AffinityProp.sidx 2 (min i j) (max i j)) = -dsq (col2 i) (col2 j) ∧
      (AffinityProp.get_similarity_ dsq col2 2).1
          (AffinityProp.sidx 2 (min i j) (max i j)) =
        (AffinityProp.get_similarity_ dsq col2 2).1
          (AffinityProp.sidx 2 (min j i) (max j i))) ∧
    (∀ i < 2, (AffinityProp.get_similarity_ dsq col2 2).1 (AffinityProp.sidx 2 i i) =
      (AffinityProp.get_similarity_ dsq col2 2).2) ∧
    (∃ a b, a < b ∧ b < 2 ∧
      (AffinityProp.get_similarity_ dsq col2 2).2 = -dsq (col2 a) (col2 b)) ∧
    (∀ a b, a < b → b < 2 →
      (AffinityProp.get_similarity_ dsq col2 2).2 ≤ -dsq (col2 a) (col2 b)) :=
  C5_similarity_symmetry 2 dsq col2 (by norm_num)
    (by with_unfolding_all decide) (by with_unfolding_all decide)

end DataFrameML
